import Mathlib

/-!
Shallow embedding of the cantine repository's conditional top-K collector
(src/tique/src/conditional_collector/top_collector.rs) and of its
append-only bincode database (src/crates/cantine/src/database/database.rs),
with theorems settling the specification claims about them.

Scores are 32-bit floats in the source; the spec's error-handling section
declares them trusted finite floats, so they are modelled as rationals,
on which the comparisons used by the code are exact.
-/

namespace Cantine

/-- Score: `f32` in the source, modelled as a rational (trusted finite float). -/
abbrev Score := ℚ

/-- tantivy `DocId`: an unsigned 32-bit integer scoped to a segment. -/
abbrev DocId := Nat

/-- tantivy `SegmentLocalId`: host-assigned id of a segment. -/
abbrev SegmentLocalId := Nat

/-- tantivy `DocAddress(segment, doc)`: a document's identity for one search
call, ordered lexicographically (segment first, then doc). -/
structure DocAddress where
  segment : Nat
  doc : Nat
deriving DecidableEq, Repr

/-- Strict lexicographic order on `DocAddress` (Boolean form): segment id
first, then doc id, both ascending. -/
def DocAddress.ltb (a b : DocAddress) : Bool :=
  a.segment < b.segment || (a.segment == b.segment && a.doc < b.doc)

/-- The two ordering policies of the conditional collector:
`Ascending` and `Descending` in `tique/conditional_collector`. -/
inductive Policy where
  | ascending
  | descending
deriving DecidableEq, Repr

/-- `p.scoreBefore a b`: score `a` strictly precedes score `b` in the result
order of policy `p` (smaller first for ascending, larger first for
descending). -/
def Policy.scoreBefore (p : Policy) (a b : Score) : Bool :=
  match p with
  | .ascending => a < b
  | .descending => b < a

/-- Canonical strict total order on scored container entries
`(score, doc_id)` within one segment: score compared by the policy
direction first, ties broken by the canonical secondary key
(doc id, ascending). -/
def entryBefore (p : Policy) (a b : Score × DocId) : Bool :=
  p.scoreBefore a.1 b.1 || (a.1 == b.1 && a.2 < b.2)

/-- Canonical strict total order on result items `(score, address)`:
score compared by the policy direction first, ties broken by the canonical
secondary key (address, ascending). -/
def itemBefore (p : Policy) (a b : Score × DocAddress) : Bool :=
  p.scoreBefore a.1 b.1 || (a.1 == b.1 && DocAddress.ltb a.2 b.2)

/-- Non-strict companion of `itemBefore`, used to sort during merge:
`a` may stay before `b` iff `b` does not strictly precede `a`. -/
def itemLe (p : Policy) (a b : Score × DocAddress) : Prop :=
  itemBefore p b a = false

instance (p : Policy) : DecidableRel (itemLe p) := fun a b => by
  unfold itemLe; infer_instance

/-- The canonical (ascending lexicographic) strict order on addresses, in
propositional form. -/
def AddrBefore (a b : DocAddress) : Prop :=
  a.segment < b.segment ∨ (a.segment = b.segment ∧ a.doc < b.doc)

/-- The canonical total result order of a policy, in propositional form:
`ScoredBefore p a b` holds iff `a` strictly precedes `b` in policy `p`'s
result order — score compared by direction first, and on score equality
the address compared by the canonical secondary key. -/
def ScoredBefore (p : Policy) (a b : Score × DocAddress) : Prop :=
  (match p with
   | .ascending => a.1 < b.1
   | .descending => b.1 < a.1)
  ∨ (a.1 = b.1 ∧ AddrBefore a.2 b.2)

/-- Modelled from the spec: the bounded Top-K container of
`tique/src/conditional_collector/topk.rs` is not under src/ (only its
caller `top_collector.rs` is); spec section 4.2 gives its contract.
It holds at most `limit` entries; `policy` records whether it is the
`AscendingTopK` or `DescendingTopK` variant. -/
structure TopK where
  policy : Policy
  limit : Nat
  entries : List (Score × DocId)
deriving DecidableEq, Repr

/-- A fresh empty container of the given policy and capacity. -/
def TopK.new (p : Policy) (limit : Nat) : TopK := ⟨p, limit, []⟩

/-- The worst entry currently held: the greatest entry under the policy's
result order (`none` when the container is empty). -/
def TopK.worst (k : TopK) : Option (Score × DocId) :=
  match k.entries with
  | [] => none
  | e :: rest =>
    some (rest.foldl (fun acc x => if entryBefore k.policy acc x then x else acc) e)

/-- Modelled from the spec (section 4.2): `visit(score, id)` inserts
unconditionally while below capacity; at capacity the new entry replaces
the current worst entry only when strictly better under the policy order,
and is discarded otherwise (ties do not evict). -/
def TopK.visit (k : TopK) (score : Score) (doc : DocId) : TopK :=
  if k.entries.length < k.limit then
    { k with entries := k.entries ++ [(score, doc)] }
  else
    match k.worst with
    | none => k
    | some w =>
      if entryBefore k.policy (score, doc) w then
        { k with entries := k.entries.erase w ++ [(score, doc)] }
      else k

/-- Modelled from the spec (section 4.2): `into_vec` drains the container
into an unordered sequence; sorting is deferred to the merge step. -/
def TopK.intoVec (k : TopK) : List (Score × DocId) := k.entries

/-- A per-segment condition, `CheckCondition::check` in
`tique/conditional_collector`: a predicate over segment id, doc id and
score. -/
abbrev Condition := SegmentLocalId → DocId → Score → Bool

/-- Modelled from the spec (section 4.3): the resume-after-marker
condition — the `CheckCondition` implementation for a marker tuple
`(score, DocAddress)` lives in `tique/src/conditional_collector/mod.rs`,
which is not under src/. It includes a candidate iff its ScoredDoc is
strictly after the Marker in the Policy's total order: score compared by
direction first; on score equality, address compared by the canonical
secondary key. -/
def checkMarker (p : Policy) (m : Score × DocAddress) : Condition :=
  fun segmentId docId score =>
    (match p with
     | .ascending => m.1 < score
     | .descending => score < m.1)
    || (score == m.1 && DocAddress.ltb m.2 ⟨segmentId, docId⟩)

/-- `TopSegmentCollector` state: the two counters, the segment id, the
bounded container and the condition
(`top_collector.rs`, lines 68–75). -/
structure TopSegmentCollector where
  total : Nat
  visited : Nat
  segment_id : SegmentLocalId
  topk : TopK
  condition : Condition

/-- `TopSegmentCollector::new` (`top_collector.rs`, lines 82–91):
both counters start at zero. -/
def TopSegmentCollector.new (segmentId : SegmentLocalId) (topk : TopK)
    (condition : Condition) : TopSegmentCollector :=
  { total := 0, visited := 0, segment_id := segmentId, topk := topk
  , condition := condition }

/-- `TopSegmentCollector::collect` (`top_collector.rs`, lines 101–107):
always increment `total`; when the condition accepts, increment `visited`
and visit the container. Total function: never fails, returns the updated
state. -/
def TopSegmentCollector.collect (c : TopSegmentCollector) (doc : DocId)
    (score : Score) : TopSegmentCollector :=
  let c := { c with total := c.total + 1 }
  if c.condition c.segment_id doc score then
    { c with visited := c.visited + 1, topk := c.topk.visit score doc }
  else
    c

/-- `CollectionResult` (`top_collector.rs`, lines 129–134). -/
structure CollectionResult where
  total : Nat
  visited : Nat
  items : List (Score × DocAddress)
deriving DecidableEq, Repr

/-- `TopSegmentCollector::harvest` (`top_collector.rs`, lines 109–126):
drain the container and stamp each surviving doc id with the collector's
segment id; items stay unsorted. -/
def TopSegmentCollector.harvest (c : TopSegmentCollector) : CollectionResult :=
  { total := c.total
  , visited := c.visited
  , items := c.topk.intoVec.map (fun sd => (sd.1, DocAddress.mk c.segment_id sd.2)) }

/-- Feed a stream of `(doc_id, score)` pairs to a segment collector, in
order. -/
def collectMany (c : TopSegmentCollector) (stream : List (DocId × Score)) :
    TopSegmentCollector :=
  stream.foldl (fun acc ds => acc.collect ds.1 ds.2) c

/-- Modelled from the spec (section 4.1): `TopKProvider::merge_many` of
`tique/src/conditional_collector/topk.rs` is not under src/; the spec
says: concatenate all items from all fruits, sum `total` and `visited`,
sort by the canonical total order, truncate to `limit`. -/
def mergeMany (p : Policy) (limit : Nat) (fruits : List CollectionResult) :
    CollectionResult :=
  { total := (fruits.map CollectionResult.total).sum
  , visited := (fruits.map CollectionResult.visited).sum
  , items :=
      (List.insertionSort (itemLe p) (fruits.map CollectionResult.items).flatten).take limit }

/-- `TopCollector` (`top_collector.rs`, lines 13–18): the configured limit,
the policy (the `P : TopKProvider` type parameter) and the condition
factory. -/
structure TopCollector where
  limit : Nat
  policy : Policy
  conditionFactory : SegmentLocalId → Condition

/-- `TopCollector::new` (`top_collector.rs`, lines 26–36): panics when
`limit < 1`; the panic is modelled as `none`. -/
def TopCollector.new (limit : Nat) (p : Policy)
    (cf : SegmentLocalId → Condition) : Option TopCollector :=
  if limit < 1 then none else some ⟨limit, p, cf⟩

/-- `TopCollector::for_segment` (`top_collector.rs`, lines 55–65): a fresh
segment collector seeded with an empty container of the configured limit
and the condition the factory builds for this segment. -/
def TopCollector.forSegment (t : TopCollector) (segmentId : SegmentLocalId) :
    TopSegmentCollector :=
  TopSegmentCollector.new segmentId (TopK.new t.policy t.limit)
    (t.conditionFactory segmentId)

/-- `TopCollector::merge_fruits` (`top_collector.rs`, lines 51–53):
delegates to the policy's `merge_many` with the configured limit. -/
def TopCollector.mergeFruits (t : TopCollector)
    (fruits : List CollectionResult) : CollectionResult :=
  mergeMany t.policy t.limit fruits

/-- The fruit a fresh segment collector harvests after a stream: the
composition of `for_segment`, a sequence of `collect` calls, and
`harvest`. -/
def segmentFruit (p : Policy) (limit : Nat) (cond : Condition)
    (sid : SegmentLocalId) (stream : List (DocId × Score)) : CollectionResult :=
  (collectMany (TopSegmentCollector.new sid (TopK.new p limit) cond)
    stream).harvest

/-- A well-formed fruit used to exercise the merge bound theorems on a
concrete input. -/
def demoFruit : CollectionResult :=
  { total := 2, visited := 1, items := [(0, ⟨0, 1⟩)] }

/-- A concrete segment-local fruit used to exercise merge commutativity. -/
def fruitA : CollectionResult :=
  { total := 3, visited := 2, items := [(1, ⟨0, 1⟩), (2, ⟨0, 2⟩)] }

/-- A second concrete segment-local fruit used to exercise merge
commutativity. -/
def fruitB : CollectionResult :=
  { total := 4, visited := 1, items := [(2, ⟨1, 1⟩)] }

/-- Little-endian base-256 byte list of `n`, `k` bytes long: the encoding
`byteorder::LittleEndian` writes for fixed-width integers. -/
def leBytes : Nat → Nat → List Nat
  | 0, _ => []
  | k + 1, n => n % 256 :: leBytes k (n / 256)

/-- Read a little-endian base-256 number back from a byte list. -/
def readLE : List Nat → Nat
  | [] => 0
  | b :: rest => b + 256 * readLE rest

/-- The 8-byte little-endian encoding of a `u64`. -/
def u64LE (n : Nat) : List Nat := leBytes 8 n

/-- Modelled from the spec: `AppendOnlyMappedFile::each_chunk`
(`cantine/src/database/mapped_file.rs` is not under src/) iterates over
the consecutive complete chunks of an append-only byte file; specialised
to the 16-byte log records of `BincodeDatabase::new`, with the remaining
length as structural recursion fuel. -/
def chunks16Aux : Nat → List Nat → List (List Nat)
  | 0, _ => []
  | fuel + 1, l =>
    if 16 ≤ l.length then l.take 16 :: chunks16Aux fuel (l.drop 16) else []

/-- The consecutive complete 16-byte chunks of a byte file. -/
def chunks16 (l : List Nat) : List (List Nat) := chunks16Aux l.length l

/-- `BincodeDatabase` state (`database.rs`, lines 18–22): the append-only
log and data byte files and the in-memory offset index. The `HashMap` is
modelled as an association list with the newest binding first, so lookup
takes the first match — the map's insert-replaces semantics. -/
structure BincodeDatabase where
  log : List Nat
  data : List Nat
  index : List (Nat × Nat)
deriving DecidableEq, Repr

/-- One replay step of `BincodeDatabase::new` (`database.rs`, lines
32–42): read the id from the chunk's first 8 bytes and the offset from
its last 8, insert into the index, and keep the offset as the running
`max_offset` (offsets only ever increase, so the last one read is the
maximum). -/
def replayStep (acc : List (Nat × Nat) × Nat) (chunk : List Nat) :
    List (Nat × Nat) × Nat :=
  ((readLE (chunk.take 8), readLE (chunk.drop 8)) :: acc.1,
    readLE (chunk.drop 8))

/-- `BincodeDatabase::new` (`database.rs`, lines 25–61): rebuild the
in-memory offset index by replaying the log's 16-byte chunks, then fail —
`none`, modelling the `Err` return — when a positive final `max_offset`
points at or past the end of the data file. -/
def BincodeDatabase.new (log data : List Nat) : Option BincodeDatabase :=
  let st := (chunks16 log).foldl replayStep ([], 0)
  if 0 < st.2 ∧ data.length ≤ st.2 then none
  else some { log := log, data := data, index := st.1 }

/-- `Database::add` for `BincodeDatabase` (`database.rs`, lines 68–83):
serialize the object, append it to the data file at the current end
offset, append the 16-byte `(id, offset)` record to the log, and insert
the offset into the index. -/
def BincodeDatabase.add {T : Type} (encode : T → List Nat)
    (db : BincodeDatabase) (id : Nat) (obj : T) : BincodeDatabase :=
  let curOffset := db.data.length
  { log := db.log ++ (u64LE id ++ u64LE curOffset)
  , data := db.data ++ encode obj
  , index := (id, curOffset) :: db.index }

/-- `Database::get` for `BincodeDatabase` (`database.rs`, lines 84–93):
`Ok(None)` when the id is not in the index; otherwise deserialize the
data file from the recorded offset (`none` models an `Err` of the
deserializer). -/
def BincodeDatabase.get {T : Type} (decode : List Nat → Option T)
    (db : BincodeDatabase) (id : Nat) : Option (Option T) :=
  match db.index.lookup id with
  | none => some none
  | some off =>
    match decode (db.data.drop off) with
    | none => none
    | some obj => some (some obj)

/-- The freshly opened database of an empty directory. -/
def emptyDB : BincodeDatabase := { log := [], data := [], index := [] }

/-- Apply a sequence of `add` operations in order. -/
def applyAdds {T : Type} (encode : T → List Nat) (db : BincodeDatabase)
    (ops : List (Nat × T)) : BincodeDatabase :=
  ops.foldl (fun acc op => acc.add encode op.1 op.2) db

/-- The spec-level view of the store: the most recent `add` for an id
wins. -/
def lastAdded {T : Type} (ops : List (Nat × T)) (id : Nat) : Option T :=
  (ops.reverse.find? (fun op => op.1 == id)).map Prod.snd

/-- A store entry is in the state the abstract map prescribes: an absent
id has no index binding; a present id's binding points at a data-file
suffix starting with the encoding of its latest object. -/
def GoodAt {T : Type} (encode : T → List Nat) (db : BincodeDatabase)
    (id : Nat) : Option T → Prop
  | none => db.index.lookup id = none
  | some obj => ∃ off rest, db.index.lookup id = some off ∧
      db.data.drop off = encode obj ++ rest

/-- The single-byte record type used to exercise the database theorems on
concrete runs. -/
def byteEncode (x : Fin 256) : List Nat := [x.val]

/-- Prefix decoder matching `byteEncode`. -/
def byteDecode (bytes : List Nat) : Option (Fin 256) :=
  match bytes with
  | [] => none
  | b :: _ => some ⟨b % 256, Nat.mod_lt b (by decide)⟩

/-- A concrete sequence of adds: id 1 is written twice, id 2 once. -/
def demoOps : List (Nat × Fin 256) := [(1, 5), (2, 7), (1, 9)]

/-- A segment collector whose condition rejects everything, used to
exercise the frame-effect theorem on a concrete state. -/
def rejectAllCollector : TopSegmentCollector :=
  TopSegmentCollector.new 2 (TopK.new .ascending 4) (fun _ _ _ => false)

/-- A condition factory accepting every document. -/
def alwaysFactory : SegmentLocalId → Condition := fun _ _ _ _ => true

/-- Run one policy's collector over a single segment stream with the
always-true condition and merge the single resulting fruit. -/
def runUnfiltered (p : Policy) (limit : Nat) (segmentId : SegmentLocalId)
    (stream : List (DocId × Score)) : CollectionResult :=
  mergeMany p limit
    [(collectMany
        (TopSegmentCollector.new segmentId (TopK.new p limit) (fun _ _ _ => true))
        stream).harvest]

/-- The concrete run of the spec's marker scenario (the
`collection_with_a_marker_smoke` test, `top_collector.rs` lines 179–204):
Descending, limit 3, segment 0, marker `(0.5, DocAddress(0, 4))`, stream
`(7,0.6), (5,0.7), (3,0.5), (2,0.5), (4,0.5), (1,0.0), (6,0.5)`. -/
def markerSmokeRun : CollectionResult :=
  (collectMany
    (TopSegmentCollector.new 0 (TopK.new .descending 3)
      (checkMarker .descending (mkRat 1 2, ⟨0, 4⟩)))
    [(7, mkRat 3 5), (5, mkRat 7 10), (3, mkRat 1 2), (2, mkRat 1 2),
     (4, mkRat 1 2), (1, 0), (6, mkRat 1 2)]).harvest

section OrderLemmas

lemma addrBefore_trans {a b c : DocAddress} (h1 : AddrBefore a b)
    (h2 : AddrBefore b c) : AddrBefore a c := by
  unfold AddrBefore at *
  omega

lemma addrBefore_asymm {a b : DocAddress} (h : AddrBefore a b) :
    ¬ AddrBefore b a := by
  unfold AddrBefore at *
  omega

lemma addrBefore_connex {a b : DocAddress} (h : a ≠ b) :
    AddrBefore a b ∨ AddrBefore b a := by
  rcases a with ⟨as, ad⟩
  rcases b with ⟨bs, bd⟩
  simp only [ne_eq, DocAddress.mk.injEq, not_and] at h
  unfold AddrBefore
  simp only
  omega

lemma scoredBefore_trans {p : Policy} {a b c : Score × DocAddress}
    (h1 : ScoredBefore p a b) (h2 : ScoredBefore p b c) :
    ScoredBefore p a c := by
  unfold ScoredBefore at *
  cases p <;> simp only at * <;>
    rcases h1 with h1 | ⟨h1e, h1a⟩ <;> rcases h2 with h2 | ⟨h2e, h2a⟩
  · exact Or.inl (lt_trans h1 h2)
  · exact Or.inl (h2e ▸ h1)
  · exact Or.inl (h1e ▸ h2)
  · exact Or.inr ⟨h1e.trans h2e, addrBefore_trans h1a h2a⟩
  · exact Or.inl (lt_trans h2 h1)
  · exact Or.inl (h2e ▸ h1)
  · exact Or.inl (h1e ▸ h2)
  · exact Or.inr ⟨h1e.trans h2e, addrBefore_trans h1a h2a⟩

lemma scoredBefore_asymm {p : Policy} {a b : Score × DocAddress}
    (h : ScoredBefore p a b) : ¬ ScoredBefore p b a := by
  intro h'
  unfold ScoredBefore at *
  cases p <;> simp only at * <;>
    rcases h with h | ⟨he, ha⟩ <;> rcases h' with h' | ⟨he', ha'⟩
  · exact lt_asymm h h'
  · exact absurd (he' ▸ h) (lt_irrefl _)
  · exact absurd (he ▸ h') (lt_irrefl _)
  · exact absurd ha' (addrBefore_asymm ha)
  · exact lt_asymm h h'
  · exact absurd (he' ▸ h) (lt_irrefl _)
  · exact absurd (he ▸ h') (lt_irrefl _)
  · exact absurd ha' (addrBefore_asymm ha)

lemma scoredBefore_connex {p : Policy} {a b : Score × DocAddress}
    (h : a ≠ b) : ScoredBefore p a b ∨ ScoredBefore p b a := by
  rcases a with ⟨sa, aa⟩
  rcases b with ⟨sb, ab⟩
  rcases lt_trichotomy sa sb with hlt | heq | hgt
  · cases p
    · exact Or.inl (Or.inl hlt)
    · exact Or.inr (Or.inl hlt)
  · subst heq
    have hab : aa ≠ ab := by
      intro hc
      exact h (by rw [hc])
    rcases addrBefore_connex hab with ha | ha
    · exact Or.inl (Or.inr ⟨rfl, ha⟩)
    · exact Or.inr (Or.inr ⟨rfl, ha⟩)
  · cases p
    · exact Or.inr (Or.inl hgt)
    · exact Or.inl (Or.inl hgt)

lemma addrLtb_iff {a b : DocAddress} :
    DocAddress.ltb a b = true ↔ AddrBefore a b := by
  unfold DocAddress.ltb AddrBefore
  simp [Bool.or_eq_true, Bool.and_eq_true, decide_eq_true_iff]

lemma itemBefore_iff {p : Policy} {a b : Score × DocAddress} :
    itemBefore p a b = true ↔ ScoredBefore p a b := by
  cases p <;>
    simp [itemBefore, ScoredBefore, Policy.scoreBefore, addrLtb_iff,
      Bool.or_eq_true, Bool.and_eq_true, decide_eq_true_iff]

lemma checkMarker_iff {p : Policy} {m : Score × DocAddress}
    {sid : SegmentLocalId} {d : DocId} {s : Score} :
    checkMarker p m sid d s = true ↔ ScoredBefore p m (s, ⟨sid, d⟩) := by
  cases p <;>
    simp only [checkMarker, ScoredBefore, Bool.or_eq_true, Bool.and_eq_true,
      decide_eq_true_iff, beq_iff_eq, addrLtb_iff] <;>
    constructor <;>
    rintro (h | ⟨he, ha⟩)
  · exact Or.inl h
  · exact Or.inr ⟨he.symm, ha⟩
  · exact Or.inl h
  · exact Or.inr ⟨he.symm, ha⟩
  · exact Or.inl h
  · exact Or.inr ⟨he.symm, ha⟩
  · exact Or.inl h
  · exact Or.inr ⟨he.symm, ha⟩

lemma itemLe_iff {p : Policy} {a b : Score × DocAddress} :
    itemLe p a b ↔ ¬ ScoredBefore p b a := by
  unfold itemLe
  rw [← itemBefore_iff]
  simp

instance (p : Policy) : IsTotal (Score × DocAddress) (itemLe p) := by
  constructor
  intro a b
  by_cases hab : ScoredBefore p a b
  · exact Or.inl (itemLe_iff.mpr (scoredBefore_asymm hab))
  · by_cases heq : a = b
    · subst heq
      exact Or.inl (itemLe_iff.mpr hab)
    · rcases scoredBefore_connex heq with h | h
      · exact absurd h hab
      · exact Or.inr (itemLe_iff.mpr (scoredBefore_asymm h))

instance (p : Policy) : IsTrans (Score × DocAddress) (itemLe p) := by
  constructor
  intro a b c hab hbc
  rw [itemLe_iff] at *
  intro hca
  by_cases heq : c = b
  · subst heq
    exact hab hca
  · rcases scoredBefore_connex heq with h | h
    · exact hbc h
    · exact hab (scoredBefore_trans h hca)

instance (p : Policy) : IsAntisymm (Score × DocAddress) (itemLe p) := by
  constructor
  intro a b hab hba
  rw [itemLe_iff] at *
  by_contra hne
  rcases scoredBefore_connex hne with h | h
  · exact hba h
  · exact hab h

end OrderLemmas

section CollectorLemmas

lemma collect_total (c : TopSegmentCollector) (d : DocId) (s : Score) :
    (c.collect d s).total = c.total + 1 := by
  unfold TopSegmentCollector.collect
  dsimp only
  split <;> rfl

lemma collect_visited (c : TopSegmentCollector) (d : DocId) (s : Score) :
    (c.collect d s).visited
      = c.visited + (if c.condition c.segment_id d s then 1 else 0) := by
  unfold TopSegmentCollector.collect
  dsimp only
  split <;> simp_all

lemma collect_segment_id (c : TopSegmentCollector) (d : DocId) (s : Score) :
    (c.collect d s).segment_id = c.segment_id := by
  unfold TopSegmentCollector.collect
  dsimp only
  split <;> rfl

lemma collect_condition (c : TopSegmentCollector) (d : DocId) (s : Score) :
    (c.collect d s).condition = c.condition := by
  unfold TopSegmentCollector.collect
  dsimp only
  split <;> rfl

lemma collectMany_segment_id (c : TopSegmentCollector)
    (stream : List (DocId × Score)) :
    (collectMany c stream).segment_id = c.segment_id := by
  induction stream generalizing c with
  | nil => rfl
  | cons ds rest ih =>
    show (collectMany (c.collect ds.1 ds.2) rest).segment_id = _
    rw [ih, collect_segment_id]

lemma collectMany_condition (c : TopSegmentCollector)
    (stream : List (DocId × Score)) :
    (collectMany c stream).condition = c.condition := by
  induction stream generalizing c with
  | nil => rfl
  | cons ds rest ih =>
    show (collectMany (c.collect ds.1 ds.2) rest).condition = _
    rw [ih, collect_condition]

lemma collectMany_total (c : TopSegmentCollector)
    (stream : List (DocId × Score)) :
    (collectMany c stream).total = c.total + stream.length := by
  induction stream generalizing c with
  | nil => rfl
  | cons ds rest ih =>
    show (collectMany (c.collect ds.1 ds.2) rest).total = _
    rw [ih, collect_total, List.length_cons]
    omega

lemma collectMany_visited (c : TopSegmentCollector)
    (stream : List (DocId × Score)) :
    (collectMany c stream).visited
      = c.visited + stream.countP (fun ds => c.condition c.segment_id ds.1 ds.2) := by
  induction stream generalizing c with
  | nil => rfl
  | cons ds rest ih =>
    show (collectMany (c.collect ds.1 ds.2) rest).visited = _
    rw [ih, collect_visited, collect_condition, collect_segment_id,
      List.countP_cons]
    by_cases h : c.condition c.segment_id ds.1 ds.2 = true <;> simp [h] <;> omega

end CollectorLemmas

section TopKLemmas

lemma foldl_pick_mem (p : Policy) (l : List (Score × DocId)) (a : Score × DocId) :
    l.foldl (fun acc x => if entryBefore p acc x then x else acc) a ∈ a :: l := by
  induction l generalizing a with
  | nil => simp
  | cons x xs ih =>
    simp only [List.foldl_cons]
    by_cases hb : entryBefore p a x = true
    · rw [if_pos hb]
      rcases List.mem_cons.mp (ih x) with h1 | h1
      · rw [h1]
        simp
      · simp [h1]
    · rw [if_neg hb]
      rcases List.mem_cons.mp (ih a) with h1 | h1
      · rw [h1]
        simp
      · simp [h1]

lemma worst_mem {k : TopK} {w : Score × DocId} (h : k.worst = some w) :
    w ∈ k.entries := by
  unfold TopK.worst at h
  cases he : k.entries with
  | nil => rw [he] at h; cases h
  | cons e rest =>
    rw [he] at h
    injection h with h
    rw [← h, ← he]
    have := foldl_pick_mem k.policy rest e
    rw [he]
    exact this

lemma worst_none_iff {k : TopK} : k.worst = none ↔ k.entries = [] := by
  unfold TopK.worst
  cases k.entries <;> simp

lemma visit_limit (k : TopK) (s : Score) (d : DocId) :
    (k.visit s d).limit = k.limit := by
  unfold TopK.visit
  split
  · rfl
  · split
    · rfl
    · split <;> rfl

lemma visit_policy (k : TopK) (s : Score) (d : DocId) :
    (k.visit s d).policy = k.policy := by
  unfold TopK.visit
  split
  · rfl
  · split
    · rfl
    · split <;> rfl

lemma visit_length_le_limit {k : TopK} (hk : k.entries.length ≤ k.limit)
    (s : Score) (d : DocId) : (k.visit s d).entries.length ≤ k.limit := by
  unfold TopK.visit
  split
  · simp only [List.length_append, List.length_cons, List.length_nil]
    omega
  · split
    · exact hk
    · rename_i w hw
      split
      · have hmem := worst_mem hw
        have hpos : 0 < k.entries.length :=
          List.length_pos.mpr (List.ne_nil_of_mem hmem)
        simp only [List.length_append, List.length_cons, List.length_nil,
          List.length_erase_of_mem hmem]
        omega
      · exact hk

lemma visit_length_le_succ (k : TopK) (s : Score) (d : DocId) :
    (k.visit s d).entries.length ≤ k.entries.length + 1 := by
  unfold TopK.visit
  split
  · simp
  · split
    · omega
    · rename_i w hw
      split
      · have hmem := worst_mem hw
        simp only [List.length_append, List.length_cons, List.length_nil,
          List.length_erase_of_mem hmem]
        omega
      · omega

lemma collect_topk (c : TopSegmentCollector) (d : DocId) (s : Score) :
    (c.collect d s).topk
      = (if c.condition c.segment_id d s then c.topk.visit s d else c.topk) := by
  unfold TopSegmentCollector.collect
  dsimp only
  split <;> simp_all

/-- The three counter/size bounds are preserved by a single `collect`. -/
lemma collect_bounds (c : TopSegmentCollector) (d : DocId) (s : Score)
    (h1 : c.topk.entries.length ≤ c.topk.limit)
    (h2 : c.topk.entries.length ≤ c.visited)
    (h3 : c.visited ≤ c.total) :
    (c.collect d s).topk.entries.length ≤ (c.collect d s).topk.limit ∧
    (c.collect d s).topk.entries.length ≤ (c.collect d s).visited ∧
    (c.collect d s).visited ≤ (c.collect d s).total := by
  rw [collect_topk, collect_visited, collect_total]
  by_cases hc : c.condition c.segment_id d s = true
  · rw [if_pos hc, if_pos hc, visit_limit]
    refine ⟨visit_length_le_limit h1 s d, ?_, by omega⟩
    have := visit_length_le_succ c.topk s d
    omega
  · rw [if_neg hc, if_neg hc]
    exact ⟨h1, h2, by omega⟩

lemma collectMany_bounds (stream : List (DocId × Score))
    (c : TopSegmentCollector)
    (h1 : c.topk.entries.length ≤ c.topk.limit)
    (h2 : c.topk.entries.length ≤ c.visited)
    (h3 : c.visited ≤ c.total) :
    (collectMany c stream).topk.entries.length
      ≤ (collectMany c stream).topk.limit ∧
    (collectMany c stream).topk.entries.length
      ≤ (collectMany c stream).visited ∧
    (collectMany c stream).visited ≤ (collectMany c stream).total := by
  induction stream generalizing c with
  | nil => exact ⟨h1, h2, h3⟩
  | cons ds rest ih =>
    show (collectMany (c.collect ds.1 ds.2) rest).topk.entries.length ≤ _ ∧ _
    obtain ⟨g1, g2, g3⟩ := collect_bounds c ds.1 ds.2 h1 h2 h3
    exact ih (c.collect ds.1 ds.2) g1 g2 g3

lemma collectMany_topk_limit (stream : List (DocId × Score))
    (c : TopSegmentCollector) :
    (collectMany c stream).topk.limit = c.topk.limit := by
  induction stream generalizing c with
  | nil => rfl
  | cons ds rest ih =>
    show (collectMany (c.collect ds.1 ds.2) rest).topk.limit = _
    rw [ih, collect_topk]
    split
    · exact visit_limit _ _ _
    · rfl

end TopKLemmas

section MergeLemmas

lemma visit_append {k : TopK} (h : k.entries.length < k.limit)
    (s : Score) (d : DocId) :
    (k.visit s d).entries = k.entries ++ [(s, d)] := by
  unfold TopK.visit
  rw [if_pos h]

/-- With an always-true condition and enough capacity for the whole stream,
the container simply accumulates every document in arrival order. -/
lemma collectMany_topk_all (stream : List (DocId × Score))
    (c : TopSegmentCollector) (htrue : c.condition = fun _ _ _ => true)
    (hroom : c.topk.entries.length + stream.length ≤ c.topk.limit) :
    (collectMany c stream).topk.entries
      = c.topk.entries ++ stream.map (fun ds => (ds.2, ds.1)) := by
  induction stream generalizing c with
  | nil => simp [collectMany]
  | cons ds rest ih =>
    show (collectMany (c.collect ds.1 ds.2) rest).topk.entries = _
    have hcond : c.condition c.segment_id ds.1 ds.2 = true := by rw [htrue]
    have htopk : (c.collect ds.1 ds.2).topk = c.topk.visit ds.2 ds.1 := by
      rw [collect_topk, if_pos hcond]
    have hlt : c.topk.entries.length < c.topk.limit := by
      simp only [List.length_cons] at hroom
      omega
    have happ : (c.collect ds.1 ds.2).topk.entries
        = c.topk.entries ++ [(ds.2, ds.1)] := by
      rw [htopk, visit_append hlt]
    have hlim : (c.collect ds.1 ds.2).topk.limit = c.topk.limit := by
      rw [htopk, visit_limit]
    rw [ih (c.collect ds.1 ds.2) (by rw [collect_condition, htrue])
      (by rw [happ, hlim]; simp only [List.length_append, List.length_cons,
        List.length_nil] at *; omega), happ]
    simp

lemma runUnfiltered_items (p : Policy) (limit : Nat) (sid : SegmentLocalId)
    (stream : List (DocId × Score)) (h : stream.length ≤ limit) :
    (runUnfiltered p limit sid stream).items
      = List.insertionSort (itemLe p)
          (stream.map (fun ds => (ds.2, DocAddress.mk sid ds.1))) := by
  have hentries := collectMany_topk_all stream
    (TopSegmentCollector.new sid (TopK.new p limit) (fun _ _ _ => true))
    rfl (by simpa [TopSegmentCollector.new, TopK.new] using h)
  have hsid : (collectMany (TopSegmentCollector.new sid (TopK.new p limit)
      (fun _ _ _ => true)) stream).segment_id = sid := by
    rw [collectMany_segment_id]
    rfl
  have hitems : (collectMany (TopSegmentCollector.new sid (TopK.new p limit)
      (fun _ _ _ => true)) stream).harvest.items
      = stream.map (fun ds => (ds.2, DocAddress.mk sid ds.1)) := by
    unfold TopSegmentCollector.harvest TopK.intoVec
    rw [hsid, hentries]
    simp [TopSegmentCollector.new, TopK.new]
  unfold runUnfiltered mergeMany
  simp only [List.map_cons, List.map_nil, List.flatten_cons, List.flatten_nil,
    List.append_nil, hitems]
  refine List.take_of_length_le ?_
  rw [(List.perm_insertionSort (itemLe p) _).length_eq, List.length_map]
  exact h

lemma sorted_map_fst_asc {l : List (Score × DocAddress)}
    (h : List.Sorted (itemLe .ascending) l) :
    List.Sorted (fun a b : Score => a ≤ b) (l.map Prod.fst) := by
  rw [List.Sorted, List.pairwise_map]
  refine h.imp ?_
  intro a b hab
  have hle := itemLe_iff.mp hab
  by_contra hlt
  exact hle (Or.inl (lt_of_not_le hlt))

lemma sorted_map_fst_desc {l : List (Score × DocAddress)}
    (h : List.Sorted (itemLe .descending) l) :
    List.Sorted (fun a b : Score => b ≤ a) (l.map Prod.fst) := by
  rw [List.Sorted, List.pairwise_map]
  refine h.imp ?_
  intro a b hab
  have hle := itemLe_iff.mp hab
  by_contra hlt
  exact hle (Or.inl (lt_of_not_le hlt))

end MergeLemmas

section DatabaseLemmas

lemma leBytes_length (k n : Nat) : (leBytes k n).length = k := by
  induction k generalizing n with
  | zero => rfl
  | succ k ih => simp [leBytes, ih]

lemma readLE_leBytes (k n : Nat) : readLE (leBytes k n) = n % 256 ^ k := by
  induction k generalizing n with
  | zero => simp [leBytes, readLE, Nat.mod_one]
  | succ k ih =>
    rw [leBytes, readLE, ih, Nat.div_mod_eq_mod_mul_div]
    have h256 : 256 * 256 ^ k = 256 ^ (k + 1) := by ring
    rw [h256]
    have hd : n % 256 = n % 256 ^ (k + 1) % 256 :=
      (Nat.mod_mod_of_dvd n (dvd_pow_self 256 (Nat.succ_ne_zero k))).symm
    rw [hd, Nat.mod_add_div]

lemma readLE_u64LE {n : Nat} (h : n < 2 ^ 64) : readLE (u64LE n) = n := by
  have h8 : (256 : Nat) ^ 8 = 2 ^ 64 := by norm_num
  rw [u64LE, readLE_leBytes, h8]
  exact Nat.mod_eq_of_lt h

lemma u64LE_length (n : Nat) : (u64LE n).length = 8 := leBytes_length 8 n

lemma rec16_take (a b : Nat) : (u64LE a ++ u64LE b).take 8 = u64LE a :=
  List.take_left' (u64LE_length a)

lemma rec16_drop (a b : Nat) : (u64LE a ++ u64LE b).drop 8 = u64LE b :=
  List.drop_left' (u64LE_length a)

lemma chunks16Aux_step (fuel : Nat) (l : List Nat) (h16 : 16 ≤ l.length)
    (hf : l.length ≤ fuel) :
    chunks16Aux fuel l = l.take 16 :: chunks16Aux (fuel - 1) (l.drop 16) := by
  cases fuel with
  | zero => omega
  | succ g =>
    simp only [chunks16Aux]
    rw [if_pos h16]
    rfl

lemma chunks16Aux_congr (n : Nat) :
    ∀ (l : List Nat) (f1 f2 : Nat), l.length ≤ n → l.length ≤ f1 →
      l.length ≤ f2 → chunks16Aux f1 l = chunks16Aux f2 l := by
  induction n with
  | zero =>
    intro l f1 f2 hn _ _
    have hl : l = [] := List.length_eq_zero.mp (Nat.le_zero.mp hn)
    subst hl
    cases f1 <;> cases f2 <;> simp [chunks16Aux]
  | succ n ih =>
    intro l f1 f2 hn h1 h2
    by_cases hl : 16 ≤ l.length
    · rw [chunks16Aux_step f1 l hl h1, chunks16Aux_step f2 l hl h2]
      have hdrop : (l.drop 16).length = l.length - 16 := by
        simp [List.length_drop]
      rw [ih (l.drop 16) (f1 - 1) (f2 - 1) (by omega) (by omega) (by omega)]
    · cases f1 <;> cases f2 <;> simp [chunks16Aux, hl]

lemma chunks16_flatten (recs : List (List Nat))
    (h : ∀ r ∈ recs, r.length = 16) : chunks16 recs.flatten = recs := by
  induction recs with
  | nil => rfl
  | cons r rest ih =>
    have hr : r.length = 16 := h r (by simp)
    have hflat : (r :: rest).flatten = r ++ rest.flatten := by simp
    rw [hflat]
    unfold chunks16
    have h16 : 16 ≤ (r ++ rest.flatten).length := by simp [hr]
    rw [chunks16Aux_step _ _ h16 (le_refl _)]
    rw [List.take_left' hr, List.drop_left' hr]
    congr 1
    rw [chunks16Aux_congr rest.flatten.length rest.flatten
      ((r ++ rest.flatten).length - 1) rest.flatten.length (le_refl _)
      (by simp [hr]) (le_refl _)]
    exact ih (fun q hq => h q (by simp [hq]))

lemma replay_foldl (prs : List (Nat × Nat))
    (hb : ∀ pr ∈ prs, pr.1 < 2 ^ 64 ∧ pr.2 < 2 ^ 64)
    (acc : List (Nat × Nat)) (m : Nat) :
    (prs.map (fun pr => u64LE pr.1 ++ u64LE pr.2)).foldl replayStep (acc, m)
      = (prs.reverse ++ acc, ((prs.getLast?).map Prod.snd).getD m) := by
  induction prs using List.reverseRecOn with
  | nil => simp
  | append_singleton l q ih =>
    rw [List.map_append, List.foldl_append,
      ih (fun pr hpr => hb pr (by simp [hpr]))]
    simp only [List.map_cons, List.map_nil, List.foldl_cons, List.foldl_nil]
    have hq := hb q (by simp)
    unfold replayStep
    rw [rec16_take, rec16_drop, readLE_u64LE hq.1, readLE_u64LE hq.2]
    rw [List.reverse_append, List.getLast?_concat]
    simp

lemma lastAdded_append {T : Type} (l : List (Nat × T)) (op : Nat × T)
    (id : Nat) :
    lastAdded (l ++ [op]) id
      = if op.1 = id then some op.2 else lastAdded l id := by
  unfold lastAdded
  rw [List.reverse_append]
  by_cases h : op.1 = id <;> simp [List.find?_cons, h]

lemma applyAdds_append {T : Type} (encode : T → List Nat)
    (db : BincodeDatabase) (l : List (Nat × T)) (op : Nat × T) :
    applyAdds encode db (l ++ [op])
      = (applyAdds encode db l).add encode op.1 op.2 := by
  simp [applyAdds]

/-- The combined induction invariant of the log-structured store: the
index refines the spec-level map, the log is exactly the 16-byte records
of the index in write order, ids and offsets fit in a `u64`, and the data
file's length is the total encoded length. -/
lemma applyAdds_inv {T : Type} (encode : T → List Nat)
    (hlen : ∀ x : T, 0 < (encode x).length)
    (ops : List (Nat × T))
    (hids : ∀ op ∈ ops, op.1 < 2 ^ 64)
    (hsum : (ops.map (fun op => (encode op.2).length)).sum < 2 ^ 64) :
    (∀ id, GoodAt encode (applyAdds encode emptyDB ops) id
      (lastAdded ops id)) ∧
    (applyAdds encode emptyDB ops).log
      = (((applyAdds encode emptyDB ops).index.reverse).map
          (fun pr => u64LE pr.1 ++ u64LE pr.2)).flatten ∧
    (∀ pr ∈ (applyAdds encode emptyDB ops).index,
      pr.1 < 2 ^ 64 ∧ pr.2 < 2 ^ 64) ∧
    (applyAdds encode emptyDB ops).data.length
      = (ops.map (fun op => (encode op.2).length)).sum := by
  induction ops using List.reverseRecOn with
  | nil =>
    refine ⟨fun id => ?_, rfl, by simp [applyAdds, emptyDB], rfl⟩
    simp [lastAdded, GoodAt, emptyDB, applyAdds, List.lookup]
  | append_singleton l op ih =>
    have hids' : ∀ o ∈ l, o.1 < 2 ^ 64 := fun o ho => hids o (by simp [ho])
    have hsum' : (l.map (fun o => (encode o.2).length)).sum < 2 ^ 64 := by
      rw [List.map_append, List.sum_append] at hsum
      simp only [List.map_cons, List.map_nil, List.sum_cons,
        List.sum_nil] at hsum
      omega
    obtain ⟨ihG, ihLog, ihB, ihD⟩ := ih hids' hsum'
    rw [applyAdds_append]
    set db := applyAdds encode emptyDB l with hdb
    simp only [BincodeDatabase.add]
    refine ⟨fun id => ?_, ?_, ?_, ?_⟩
    · rw [lastAdded_append]
      by_cases h : op.1 = id
      · rw [if_pos h]
        refine ⟨db.data.length, [], ?_, ?_⟩
        · show List.lookup id ((op.1, db.data.length) :: db.index) = _
          rw [h, List.lookup_cons_self]
        · show (db.data ++ encode op.2).drop db.data.length = _
          rw [List.drop_left, List.append_nil]
      · rw [if_neg h]
        have hbeq : (id == op.1) = false := by
          simp [Ne.symm h]
        have hskip : List.lookup id ((op.1, db.data.length) :: db.index)
            = List.lookup id db.index := by
          simp [List.lookup, hbeq]
        cases hL : lastAdded l id with
        | none =>
          have hg := ihG id
          rw [hL] at hg
          show List.lookup id ((op.1, db.data.length) :: db.index) = none
          rw [hskip]
          exact hg
        | some obj =>
          have hg := ihG id
          rw [hL] at hg
          obtain ⟨off, rest, hlk, hdrop⟩ := hg
          have hoff : off ≤ db.data.length := by
            by_contra hgt
            have : db.data.drop off = [] :=
              List.drop_eq_nil_of_le (by omega)
            rw [this] at hdrop
            have := congrArg List.length hdrop
            simp only [List.length_nil, List.length_append] at this
            have := hlen obj
            omega
          refine ⟨off, rest ++ encode op.2, ?_, ?_⟩
          · show List.lookup id ((op.1, db.data.length) :: db.index) = _
            rw [hskip]
            exact hlk
          · show (db.data ++ encode op.2).drop off = _
            rw [List.drop_append_of_le_length hoff, hdrop,
              List.append_assoc]
    · show db.log ++ (u64LE op.1 ++ u64LE db.data.length) = _
      have hrev : ((op.1, db.data.length) :: db.index).reverse
          = db.index.reverse ++ [(op.1, db.data.length)] := by simp
      rw [hrev, List.map_append, List.flatten_append, ← ihLog]
      simp
    · intro pr hpr
      rcases List.mem_cons.mp hpr with hnew | hold
      · subst hnew
        constructor
        · exact hids op (by simp)
        · rw [ihD]
          rw [List.map_append, List.sum_append] at hsum
          simp only
          omega
      · exact ihB pr hold
    · show (db.data ++ encode op.2).length = _
      rw [List.length_append, ihD, List.map_append, List.sum_append]
      simp

/-- Reopening the database on the files a sequence of adds produced
succeeds and rebuilds exactly the same state. -/
lemma reopen_applyAdds {T : Type} (encode : T → List Nat)
    (hlen : ∀ x : T, 0 < (encode x).length)
    (ops : List (Nat × T))
    (hids : ∀ op ∈ ops, op.1 < 2 ^ 64)
    (hsum : (ops.map (fun op => (encode op.2).length)).sum < 2 ^ 64) :
    BincodeDatabase.new (applyAdds encode emptyDB ops).log
        (applyAdds encode emptyDB ops).data
      = some (applyAdds encode emptyDB ops) := by
  obtain ⟨hG, hLog, hB, hD⟩ := applyAdds_inv encode hlen ops hids hsum
  set db := applyAdds encode emptyDB ops with hdb
  have hchunks : chunks16 db.log
      = (db.index.reverse).map (fun pr => u64LE pr.1 ++ u64LE pr.2) := by
    rw [hLog]
    refine chunks16_flatten _ ?_
    intro r hr
    rcases List.mem_map.mp hr with ⟨pr, _, hpr⟩
    rw [← hpr]
    simp [u64LE_length]
  have hbrev : ∀ pr ∈ db.index.reverse, pr.1 < 2 ^ 64 ∧ pr.2 < 2 ^ 64 :=
    fun pr hpr => hB pr (List.mem_reverse.mp hpr)
  unfold BincodeDatabase.new
  rw [hchunks, replay_foldl db.index.reverse hbrev [] 0]
  simp only [List.reverse_reverse, List.append_nil, List.getLast?_reverse]
  cases hidx : db.index with
  | nil =>
    rw [if_neg (by simp)]
    rw [← hidx]
  | cons pr0 tl =>
    have hlook : List.lookup pr0.1 db.index = some pr0.2 := by
      rw [hidx]
      exact List.lookup_cons_self
    have hg := hG pr0.1
    have hoff : pr0.2 < db.data.length := by
      cases hL : lastAdded ops pr0.1 with
      | none =>
        rw [hL] at hg
        unfold GoodAt at hg
        rw [hg] at hlook
        cases hlook
      | some obj =>
        rw [hL] at hg
        obtain ⟨off, rest, hlk, hdrop⟩ := hg
        rw [hlk] at hlook
        injection hlook with hlook
        have hne : db.data.drop off ≠ [] := by
          rw [hdrop]
          intro hc
          have := congrArg List.length hc
          simp only [List.length_append, List.length_nil] at this
          have := hlen obj
          omega
        have : ¬ db.data.length ≤ off := by
          intro hle
          exact hne (List.drop_eq_nil_of_le hle)
        omega
    simp only [List.head?_cons]
    have hgd : (Option.map Prod.snd (some pr0)).getD 0 = pr0.2 := rfl
    rw [if_neg (show ¬(0 < (Option.map Prod.snd (some pr0)).getD 0 ∧
        db.data.length ≤ (Option.map Prod.snd (some pr0)).getD 0) by
      rw [hgd]; omega)]
    rw [← hidx]

end DatabaseLemmas

/-- C1: the resume-after-marker Condition accepts a candidate iff the
candidate's ScoredDoc is strictly after the marker in the Policy's total
order (score by direction first, ties by the canonical address key), and
the outcome of a `collect` call for a candidate depends only on the
candidate's doc id and score — after any stream of prior documents, the
visited counter moves by exactly the marker test of the candidate itself. -/
theorem C1_resume_condition (p : Policy) (m : Score × DocAddress)
    (sid : SegmentLocalId) (d : DocId) (s : Score) (limit : Nat)
    (stream : List (DocId × Score)) :
    (checkMarker p m sid d s = true ↔ ScoredBefore p m (s, ⟨sid, d⟩)) ∧
    ((collectMany (TopSegmentCollector.new sid (TopK.new p limit)
        (checkMarker p m)) stream).collect d s).visited
      = (collectMany (TopSegmentCollector.new sid (TopK.new p limit)
          (checkMarker p m)) stream).visited
        + (if checkMarker p m sid d s then 1 else 0) := by
  constructor
  · exact checkMarker_iff
  · rw [collect_visited, collectMany_condition, collectMany_segment_id]
    rfl

/-- C2: the concrete marker scenario — Descending, limit 3, segment 0,
marker `(0.5, doc 4)`, stream `(7,0.6), (5,0.7), (3,0.5), (2,0.5), (4,0.5),
(1,0.0), (6,0.5)` — harvests `total = 7` and exactly the two items
doc 1 (score 0.0) and doc 6 (score 0.5); docs 7, 5, 3, 2 and 4 are
excluded. -/
theorem C2_marker_smoke :
    markerSmokeRun.total = 7 ∧
    markerSmokeRun.items.length = 2 ∧
    (0, DocAddress.mk 0 1) ∈ markerSmokeRun.items ∧
    (mkRat 1 2, DocAddress.mk 0 6) ∈ markerSmokeRun.items ∧
    markerSmokeRun.items.all
      (fun x => !([7, 5, 3, 2, 4].contains x.2.doc)) = true := by
  decide

/-- C3: every `collect` call increments `total` by exactly 1 and increments
`visited` by 1 exactly when the Condition accepts the call (by 0 otherwise);
consequently, over any stream fed to a fresh segment collector,
`harvest().total` is the number of `collect` calls and `harvest().visited`
is the number of calls the Condition accepted. (`collect` is a total
function of the state: it never fails, and yields no value beyond the
updated collector.) -/
theorem C3_collect_counts (c : TopSegmentCollector) (d : DocId) (s : Score)
    (sid : SegmentLocalId) (k : TopK) (cond : Condition)
    (stream : List (DocId × Score)) :
    ((c.collect d s).total = c.total + 1 ∧
     (c.collect d s).visited
       = c.visited + (if c.condition c.segment_id d s then 1 else 0)) ∧
    ((collectMany (TopSegmentCollector.new sid k cond) stream).harvest.total
       = stream.length ∧
     (collectMany (TopSegmentCollector.new sid k cond) stream).harvest.visited
       = stream.countP (fun ds => cond sid ds.1 ds.2)) := by
  refine ⟨⟨collect_total c d s, collect_visited c d s⟩, ?_, ?_⟩
  · show (collectMany (TopSegmentCollector.new sid k cond) stream).total = _
    rw [collectMany_total]
    simp [TopSegmentCollector.new]
  · show (collectMany (TopSegmentCollector.new sid k cond) stream).visited = _
    rw [collectMany_visited]
    simp [TopSegmentCollector.new]

/-- C9: when the Condition rejects a document, `collect` changes only the
`total` counter (incrementing it by 1); `visited`, the segment id, the
container and the condition are untouched. -/
theorem C9_frame_effect (c : TopSegmentCollector) (d : DocId) (s : Score)
    (h : c.condition c.segment_id d s = false) :
    c.collect d s = { c with total := c.total + 1 } := by
  unfold TopSegmentCollector.collect
  simp [h]

theorem C9_frame_effect_witness :
    rejectAllCollector.collect 3 1
      = { rejectAllCollector with total := rejectAllCollector.total + 1 } :=
  C9_frame_effect rejectAllCollector 3 1 rfl

/-- C10: whatever the stream and the Condition, every item of the harvested
fruit of a collector created for segment `sid` carries an address whose
segment component is `sid` — harvest stamps each surviving doc id into
`DocAddress(sid, doc_id)`. -/
theorem C10_segment_stamp (sid : SegmentLocalId) (k : TopK) (cond : Condition)
    (stream : List (DocId × Score)) (x : Score × DocAddress)
    (hx : x ∈ (collectMany (TopSegmentCollector.new sid k cond)
        stream).harvest.items) :
    x.2.segment = sid := by
  have hseg :
      (collectMany (TopSegmentCollector.new sid k cond) stream).segment_id
        = sid := by
    rw [collectMany_segment_id]
    rfl
  unfold TopSegmentCollector.harvest at hx
  simp only at hx
  rcases List.mem_map.mp hx with ⟨sd, _, hmap⟩
  rw [← hmap]
  exact hseg

theorem C10_segment_stamp_witness :
    ((0 : Score), DocAddress.mk 5 1).2.segment = 5 :=
  C10_segment_stamp 5 (TopK.new .ascending 2) (fun _ _ _ => true)
    [(1, 0)] ((0 : Score), DocAddress.mk 5 1) (by decide)

/-- C7: `TopCollector::new` with limit 0 fails fatally (the panic, modelled
as `none`, is not a recoverable result), while any limit ≥ 1 succeeds and
fixes that limit (and the policy and condition factory) in the constructed
collector. -/
theorem C7_limit_construction (limit : Nat) (p : Policy)
    (cf : SegmentLocalId → Condition) (h : 1 ≤ limit) :
    TopCollector.new 0 p cf = none ∧
    TopCollector.new limit p cf = some ⟨limit, p, cf⟩ := by
  constructor
  · rfl
  · unfold TopCollector.new
    rw [if_neg (by omega)]

theorem C7_limit_construction_witness :
    TopCollector.new 0 .descending alwaysFactory = none ∧
    TopCollector.new 3 .descending alwaysFactory
      = some ⟨3, .descending, alwaysFactory⟩ :=
  C7_limit_construction 3 .descending alwaysFactory (by decide)

/-- C4: for every stream, condition and limit ≥ 1, the harvested
segment-local fruit satisfies `items.len ≤ min(limit, visited)` and
`total ≥ visited ≥ items.len`; and merging any fruits that satisfy the
bounded-size invariant yields a fruit satisfying it as well. -/
theorem C4_size_invariant (p : Policy) (limit : Nat) (cond : Condition)
    (sid : SegmentLocalId) (stream : List (DocId × Score))
    (fruits : List CollectionResult) (hlim : 1 ≤ limit)
    (hf : ∀ f ∈ fruits,
      f.items.length ≤ min limit f.visited ∧ f.visited ≤ f.total) :
    ((segmentFruit p limit cond sid stream).items.length
        ≤ min limit (segmentFruit p limit cond sid stream).visited ∧
     (segmentFruit p limit cond sid stream).visited
        ≤ (segmentFruit p limit cond sid stream).total) ∧
    ((mergeMany p limit fruits).items.length
        ≤ min limit (mergeMany p limit fruits).visited ∧
     (mergeMany p limit fruits).visited ≤ (mergeMany p limit fruits).total) := by
  constructor
  · obtain ⟨b1, b2, b3⟩ := collectMany_bounds stream
      (TopSegmentCollector.new sid (TopK.new p limit) cond)
      (Nat.zero_le _) (Nat.le_refl 0) (Nat.le_refl 0)
    have hl : (collectMany (TopSegmentCollector.new sid (TopK.new p limit) cond)
        stream).topk.limit = limit := by
      rw [collectMany_topk_limit]
      rfl
    have hitems : (segmentFruit p limit cond sid stream).items.length
        = (collectMany (TopSegmentCollector.new sid (TopK.new p limit) cond)
            stream).topk.entries.length := by
      unfold segmentFruit TopSegmentCollector.harvest
      simp [TopK.intoVec]
    have hvis : (segmentFruit p limit cond sid stream).visited
        = (collectMany (TopSegmentCollector.new sid (TopK.new p limit) cond)
            stream).visited := rfl
    have htot : (segmentFruit p limit cond sid stream).total
        = (collectMany (TopSegmentCollector.new sid (TopK.new p limit) cond)
            stream).total := rfl
    omega
  · have hlen : (mergeMany p limit fruits).items.length
        = min limit (fruits.map CollectionResult.items).flatten.length := by
      unfold mergeMany
      simp only [List.length_take,
        (List.perm_insertionSort (itemLe p) _).length_eq]
    have hflat : (fruits.map CollectionResult.items).flatten.length
        = (fruits.map (fun f => f.items.length)).sum := by
      rw [List.length_flatten, List.map_map]
      rfl
    have hv : (fruits.map (fun f => f.items.length)).sum
        ≤ (fruits.map CollectionResult.visited).sum :=
      List.sum_le_sum (fun f hfm => le_trans (hf f hfm).1 (min_le_right _ _))
    have hvt : (fruits.map CollectionResult.visited).sum
        ≤ (fruits.map CollectionResult.total).sum :=
      List.sum_le_sum (fun f hfm => (hf f hfm).2)
    have hvis : (mergeMany p limit fruits).visited
        = (fruits.map CollectionResult.visited).sum := rfl
    have htot : (mergeMany p limit fruits).total
        = (fruits.map CollectionResult.total).sum := rfl
    omega

theorem C4_size_invariant_witness :
    ((segmentFruit .descending 1 (fun _ _ _ => true) 0 [(1, 2), (2, 1)]).items.length
        ≤ min 1 (segmentFruit .descending 1 (fun _ _ _ => true) 0 [(1, 2), (2, 1)]).visited ∧
     (segmentFruit .descending 1 (fun _ _ _ => true) 0 [(1, 2), (2, 1)]).visited
        ≤ (segmentFruit .descending 1 (fun _ _ _ => true) 0 [(1, 2), (2, 1)]).total) ∧
    ((mergeMany .descending 1 [demoFruit]).items.length
        ≤ min 1 (mergeMany .descending 1 [demoFruit]).visited ∧
     (mergeMany .descending 1 [demoFruit]).visited
        ≤ (mergeMany .descending 1 [demoFruit]).total) :=
  C4_size_invariant .descending 1 (fun _ _ _ => true) 0 [(1, 2), (2, 1)]
    [demoFruit] (by decide) (by decide)

/-- C5: `merge_fruits` delegation — the merged fruit's `total` and
`visited` are the sums of the inputs', its items are the concatenation of
all input items sorted by the canonical total order and truncated to
`limit` (hence sorted), and the merged value is invariant under any
permutation of the input fruits. -/
theorem C5_merge_many (p : Policy) (limit : Nat)
    (fruits fruits' : List CollectionResult) (hperm : fruits.Perm fruits') :
    (mergeMany p limit fruits).total = (fruits.map CollectionResult.total).sum ∧
    (mergeMany p limit fruits).visited
      = (fruits.map CollectionResult.visited).sum ∧
    (mergeMany p limit fruits).items
      = (List.insertionSort (itemLe p)
          (fruits.map CollectionResult.items).flatten).take limit ∧
    List.Sorted (itemLe p) (mergeMany p limit fruits).items ∧
    mergeMany p limit fruits = mergeMany p limit fruits' := by
  refine ⟨rfl, rfl, rfl, ?_, ?_⟩
  · exact List.Pairwise.sublist (List.take_sublist limit _)
      (List.sorted_insertionSort (itemLe p) _)
  · have ht : (fruits.map CollectionResult.total).sum
        = (fruits'.map CollectionResult.total).sum :=
      (hperm.map CollectionResult.total).sum_eq
    have hv : (fruits.map CollectionResult.visited).sum
        = (fruits'.map CollectionResult.visited).sum :=
      (hperm.map CollectionResult.visited).sum_eq
    have hjoin : (fruits.map CollectionResult.items).flatten.Perm
        (fruits'.map CollectionResult.items).flatten :=
      (hperm.map CollectionResult.items).flatten
    have hsortperm : (List.insertionSort (itemLe p)
          (fruits.map CollectionResult.items).flatten).Perm
        (List.insertionSort (itemLe p)
          (fruits'.map CollectionResult.items).flatten) :=
      ((List.perm_insertionSort (itemLe p) _).trans hjoin).trans
        (List.perm_insertionSort (itemLe p) _).symm
    have hsorteq : List.insertionSort (itemLe p)
          (fruits.map CollectionResult.items).flatten
        = List.insertionSort (itemLe p)
          (fruits'.map CollectionResult.items).flatten :=
      List.eq_of_perm_of_sorted hsortperm
        (List.sorted_insertionSort (itemLe p) _)
        (List.sorted_insertionSort (itemLe p) _)
    unfold mergeMany
    rw [ht, hv, hsorteq]

theorem C5_merge_many_witness :
    (mergeMany .descending 2 [fruitA, fruitB]).total
      = ([fruitA, fruitB].map CollectionResult.total).sum ∧
    (mergeMany .descending 2 [fruitA, fruitB]).visited
      = ([fruitA, fruitB].map CollectionResult.visited).sum ∧
    (mergeMany .descending 2 [fruitA, fruitB]).items
      = (List.insertionSort (itemLe .descending)
          ([fruitA, fruitB].map CollectionResult.items).flatten).take 2 ∧
    List.Sorted (itemLe .descending)
      (mergeMany .descending 2 [fruitA, fruitB]).items ∧
    mergeMany .descending 2 [fruitA, fruitB]
      = mergeMany .descending 2 [fruitB, fruitA] :=
  C5_merge_many .descending 2 [fruitA, fruitB] [fruitB, fruitA] (by decide)

/-- C6 (counterexample): with limit 2 over a three-document dataset of
scores 1, 2, 3, the Ascending merged scores are `[1, 2]` and the Descending
merged scores are `[3, 2]` — not reverses — so the claim fails for limits
smaller than the dataset. -/
theorem C6_counterexample :
    ¬ (((runUnfiltered .ascending 2 0 [(1, 1), (2, 2), (3, 3)]).items.map
          Prod.fst).reverse
        = (runUnfiltered .descending 2 0 [(1, 1), (2, 2), (3, 3)]).items.map
          Prod.fst) := by
  decide

/-- C6 (amended): running the Ascending and the Descending collector with
the same limit over the same dataset with no filtering produces merged
score sequences that are exact reverses of one another, provided the limit
is at least the dataset's size (so that no truncation occurs). -/
theorem C6_reverse_scores (limit : Nat) (sid : SegmentLocalId)
    (stream : List (DocId × Score)) (h : stream.length ≤ limit) :
    ((runUnfiltered .ascending limit sid stream).items.map Prod.fst).reverse
      = (runUnfiltered .descending limit sid stream).items.map Prod.fst := by
  rw [runUnfiltered_items .ascending limit sid stream h,
    runUnfiltered_items .descending limit sid stream h]
  have sortedAsc := List.sorted_insertionSort (itemLe .ascending)
    (stream.map (fun ds => (ds.2, DocAddress.mk sid ds.1)))
  have sortedDesc := List.sorted_insertionSort (itemLe .descending)
    (stream.map (fun ds => (ds.2, DocAddress.mk sid ds.1)))
  have h1 : List.Sorted (fun a b : Score => b ≤ a)
      (((List.insertionSort (itemLe .ascending)
        (stream.map (fun ds => (ds.2, DocAddress.mk sid ds.1)))).map
          Prod.fst).reverse) := by
    rw [List.Sorted, List.pairwise_reverse]
    exact sorted_map_fst_asc sortedAsc
  have h2 : List.Sorted (fun a b : Score => b ≤ a)
      ((List.insertionSort (itemLe .descending)
        (stream.map (fun ds => (ds.2, DocAddress.mk sid ds.1)))).map
          Prod.fst) :=
    sorted_map_fst_desc sortedDesc
  have hperm : (((List.insertionSort (itemLe .ascending)
        (stream.map (fun ds => (ds.2, DocAddress.mk sid ds.1)))).map
          Prod.fst).reverse).Perm
      ((List.insertionSort (itemLe .descending)
        (stream.map (fun ds => (ds.2, DocAddress.mk sid ds.1)))).map
          Prod.fst) :=
    (List.reverse_perm _).trans
      (((List.perm_insertionSort (itemLe .ascending) _).trans
        (List.perm_insertionSort (itemLe .descending) _).symm).map Prod.fst)
  haveI : IsAntisymm Score (fun a b : Score => b ≤ a) :=
    ⟨fun a b hab hba => le_antisymm hba hab⟩
  exact List.eq_of_perm_of_sorted hperm h1 h2

theorem C6_reverse_scores_witness :
    ((runUnfiltered .ascending 3 0 [(1, mkRat 1 2), (2, 2)]).items.map
        Prod.fst).reverse
      = (runUnfiltered .descending 3 0 [(1, mkRat 1 2), (2, 2)]).items.map
        Prod.fst :=
  C6_reverse_scores 3 0 [(1, mkRat 1 2), (2, 2)] (by decide)

lemma byteDecode_byteEncode (x : Fin 256) (rest : List Nat) :
    byteDecode (byteEncode x ++ rest) = some x := by
  simp only [byteEncode, byteDecode, List.cons_append, List.nil_append,
    Option.some.injEq]
  exact Fin.ext (Nat.mod_eq_of_lt x.isLt)

/-- C8: the object store's `get(id) -> Option<Record>` contract — reading
a never-added id yields `Ok(None)`, reading an added id yields the most
recently added object for it (both summarised as
`get id = Ok(lastAdded ops id)`), and reopening the database on the same
files succeeds and rebuilds, by replaying the log, exactly the state that
produced them — so `get` returns the same values after the reopen.
Hypotheses: the serializer decodes its own prefix, emits at least one
byte, and ids and total data size fit in a `u64` (they are `u64`/file
offsets in the source). -/
theorem C8_database_contract {T : Type} (encode : T → List Nat)
    (decode : List Nat → Option T)
    (hdec : ∀ (x : T) (rest : List Nat), decode (encode x ++ rest) = some x)
    (hlen : ∀ x : T, 0 < (encode x).length)
    (ops : List (Nat × T)) (id : Nat)
    (hids : ∀ op ∈ ops, op.1 < 2 ^ 64)
    (hsum : (ops.map (fun op => (encode op.2).length)).sum < 2 ^ 64) :
    (applyAdds encode emptyDB ops).get decode id
      = some (lastAdded ops id) ∧
    BincodeDatabase.new (applyAdds encode emptyDB ops).log
        (applyAdds encode emptyDB ops).data
      = some (applyAdds encode emptyDB ops) := by
  obtain ⟨hG, -, -, -⟩ := applyAdds_inv encode hlen ops hids hsum
  refine ⟨?_, reopen_applyAdds encode hlen ops hids hsum⟩
  have h := hG id
  unfold BincodeDatabase.get
  cases hL : lastAdded ops id with
  | none =>
    rw [hL] at h
    unfold GoodAt at h
    rw [h]
  | some obj =>
    rw [hL] at h
    obtain ⟨off, rest, hlk, hdrop⟩ := h
    rw [hlk]
    simp only [hdrop, hdec obj rest]

theorem C8_database_contract_witness :
    (applyAdds byteEncode emptyDB demoOps).get byteDecode 1
      = some (some 9) ∧
    BincodeDatabase.new (applyAdds byteEncode emptyDB demoOps).log
        (applyAdds byteEncode emptyDB demoOps).data
      = some (applyAdds byteEncode emptyDB demoOps) := by
  have h := C8_database_contract byteEncode byteDecode byteDecode_byteEncode
    (fun x => by simp [byteEncode]) demoOps 1 (by decide) (by decide)
  refine ⟨?_, h.2⟩
  rw [h.1]
  decide

end Cantine
